import Mathlib

/-!
Shallow embedding of the telemetry-governance core of the nadi browser SDK
(src/tracing.ts, src/sampling.ts, src/privacy.ts), together with theorems
settling the frozen claims about it.

Strings are modelled as `List Char` (`Str`), JS numbers as `ℚ` where exact
comparison is what the code relies on, and the entropy consumed by
`Math.random()` / `crypto.getRandomValues` is passed in explicitly as data.
-/

namespace Nadi

abbrev Str := List Char

/-! ## Tracing module (src/tracing.ts) -/

/-- Lowercase hex digit for a value below 16, as produced by JS
`Number.prototype.toString(16)` on a single digit. -/
def hexDigit (n : Nat) : Char :=
  if n < 10 then Char.ofNat (48 + n) else Char.ofNat (87 + n)

/-- Whether a character is a lowercase hex digit, i.e. matches `[0-9a-f]`. -/
def isLowerHexChar (c : Char) : Bool :=
  (48 ≤ c.toNat && c.toNat ≤ 57) || (97 ≤ c.toNat && c.toNat ≤ 102)

/-- `b.toString(16).padStart(2, '0')` for a byte `b < 256`. -/
def byteToHex (b : Nat) : Str :=
  [hexDigit (b / 16), hexDigit (b % 16)]

/-- The crypto path of `generateHexString(byteLength)` in src/tracing.ts:
`crypto.getRandomValues` fills `byteLength` bytes (passed here explicitly as
`bytes`), each formatted as two padded lowercase hex chars and joined.
There is no check of the drawn bytes. -/
def generateHexStringCrypto (bytes : List Nat) : Str :=
  (bytes.map byteToHex).flatten

/-- The fallback path of `generateHexString(byteLength)` in src/tracing.ts:
`byteLength * 2` draws of `Math.floor(Math.random() * 16)` (passed here
explicitly as `draws`), each rendered as one hex char and concatenated.
There is no check of the drawn digits. -/
def generateHexStringFallback (draws : List Nat) : Str :=
  draws.map hexDigit

/-- `generateTraceId()` = `generateHexString(16)` (crypto path, 16 bytes). -/
def generateTraceIdCrypto (bytes : List Nat) : Str :=
  generateHexStringCrypto bytes

/-- `generateSpanId()` = `generateHexString(8)` (crypto path, 8 bytes). -/
def generateSpanIdCrypto (bytes : List Nat) : Str :=
  generateHexStringCrypto bytes

/-- The all-zero string `'0'.repeat(n)`. -/
def allZeros (n : Nat) : Str := List.replicate n '0'

/-- W3C trace context as in the `TraceContext` interface of src/tracing.ts. -/
structure TraceContext where
  traceId : Str
  spanId : Str
  sampled : Bool
  traceState : Option Str := none
deriving Repr, DecidableEq

/-- Mutable state of a `TracingManager` instance. -/
structure TracingManager where
  traceId : Str
  spanId : Str
  sampled : Bool
  traceState : Option Str
deriving Repr, DecidableEq

/-- JS truthiness of an optional string: `undefined` and `""` are falsy. -/
def optStrTruthy : Option Str → Bool
  | none => false
  | some s => !s.isEmpty

/-- `createTraceparent(spanId?)`: formats
`"00-{traceId}-{parentId}-{flags}"` where `parentId` is
`spanId || this.spanId` (JS `||`: the empty string falls back) and `flags`
is `"01"` when sampled else `"00"`. -/
def createTraceparent (m : TracingManager) (spanId : Option Str) : Str :=
  let flags : Str := if m.sampled then ['0', '1'] else ['0', '0']
  let parentId : Str :=
    match spanId with
    | some s => if s.isEmpty then m.spanId else s
    | none => m.spanId
  ['0', '0'] ++ '-' :: (m.traceId ++ '-' :: (parentId ++ '-' :: flags))

/-- JS `header.split('-')` on the character list. -/
def splitOnDash : Str → List Str
  | [] => [[]]
  | c :: cs =>
    if c = '-' then [] :: splitOnDash cs
    else
      match splitOnDash cs with
      | [] => [[c]]
      | g :: gs => (c :: g) :: gs

/-- Numeric value of a lowercase hex digit (as used by `parseInt(_, 16)`
after the flags field has been validated against `^[0-9a-f]{2}$`). -/
def hexCharVal (c : Char) : Nat :=
  if 97 ≤ c.toNat then c.toNat - 87 else c.toNat - 48

/-- `parseInt(s, 16)` on an already-validated lowercase hex string. -/
def hexVal (s : Str) : Nat :=
  s.foldl (fun acc c => acc * 16 + hexCharVal c) 0

/-- The test `/^[0-9a-f]{n}$/.test(s)`. -/
def isLowerHexOfLength (n : Nat) (s : Str) : Bool :=
  s.length == n && s.all isLowerHexChar

/-- `parseTraceparent(header)` from src/tracing.ts: empty header rejected,
split on `-` must give exactly 4 parts, version must be `"00"`, trace id
must be 32 lowercase hex chars and not all zeros, span id 16 lowercase hex
chars and not all zeros, flags 2 lowercase hex chars; the sampled flag is
bit 0 of the flags byte. -/
def parseTraceparent (header : Str) : Option TraceContext :=
  if header.isEmpty then none
  else
    match splitOnDash header with
    | [version, traceId, spanId, flags] =>
      if version = ['0', '0'] then
        if isLowerHexOfLength 32 traceId && !(traceId == allZeros 32) then
          if isLowerHexOfLength 16 spanId && !(spanId == allZeros 16) then
            if isLowerHexOfLength 2 flags then
              some { traceId := traceId, spanId := spanId,
                     sampled := (hexVal flags &&& 1) == 1, traceState := none }
            else none
          else none
        else none
      else none
    | _ => none

/-- `getContext()`: the manager's current context. -/
def getContext (m : TracingManager) : TraceContext :=
  { traceId := m.traceId, spanId := m.spanId, sampled := m.sampled,
    traceState := m.traceState }

/-- `adoptContext(context)` from src/tracing.ts: trace id, span id and the
sampled flag are always overwritten; `traceState` is overwritten only when
`context.traceState` is truthy (present and nonempty). -/
def adoptContext (m : TracingManager) (c : TraceContext) : TracingManager :=
  { m with
    traceId := c.traceId
    spanId := c.spanId
    sampled := c.sampled
    traceState := if optStrTruthy c.traceState then c.traceState else m.traceState }

/-! ## Sampling module (src/sampling.ts) -/

/-- Device type as in `SamplingContext`. -/
inductive DeviceType where
  | desktop
  | mobile
  | tablet
deriving Repr, DecidableEq

/-- Input for a sampling decision (`SamplingContext` in src/sampling.ts). -/
structure SamplingContext where
  url : Str
  route : Option Str := none
  hasError : Bool
  deviceType : Option DeviceType := none
  isSlowSession : Bool
  connectionType : Option Str := none
  tags : List (Str × Str) := []

/-- A sampling rule (`SamplingRule` in src/sampling.ts); `matchFn` is the
rule's `match` predicate, `rate` and `priority` are JS numbers. -/
structure SamplingRule where
  name : Str
  matchFn : SamplingContext → Bool
  rate : ℚ
  priority : ℚ

/-- Reason carried by a `SamplingDecision`. -/
inductive Reason where
  | rule
  | global
  | error
  | slowSession
  | forced
deriving Repr, DecidableEq

/-- Result of a sampling evaluation (`SamplingDecision` in src/sampling.ts). -/
structure SamplingDecision where
  sampled : Bool
  matchedRule : Option Str := none
  appliedRate : ℚ
  reason : Reason

/-- Configuration of the sampling manager (`SamplingConfig`). -/
structure SamplingConfig where
  globalRate : ℚ
  alwaysSampleErrors : Bool
  alwaysSampleSlowSessions : Bool
  slowSessionThresholdMs : ℚ
  adaptiveSampling : Bool

/-- `DEFAULT_SAMPLING_CONFIG` from src/sampling.ts. -/
def defaultSamplingConfig : SamplingConfig :=
  { globalRate := 1
    alwaysSampleErrors := true
    alwaysSampleSlowSessions := true
    slowSessionThresholdMs := 5000
    adaptiveSampling := false }

/-- Mutable state of a `SamplingManager` instance. -/
structure SamplingManager where
  config : SamplingConfig
  rules : List SamplingRule
  sessionSampled : Option Bool
  sessionDecision : Option SamplingDecision
  errorCount : Nat
  totalEvents : Nat
  adaptiveRate : ℚ

/-- Stable insertion of a rule into a list sorted by descending priority:
the rule goes in front of the first strictly lower-priority entry, hence
after all entries of equal priority. -/
def insertByPriority (r : SamplingRule) : List SamplingRule → List SamplingRule
  | [] => [r]
  | x :: xs =>
    if r.priority ≤ x.priority then x :: insertByPriority r xs
    else r :: x :: xs

/-- `sortRules()` from src/sampling.ts: JS `Array.prototype.sort` with
comparator `(a, b) => b.priority - a.priority` is a stable sort by
descending priority, modelled as a stable insertion sort. -/
def sortRules (l : List SamplingRule) : List SamplingRule :=
  l.foldl (fun acc r => insertByPriority r acc) []

/-- The `SamplingManager` constructor: merged config, rules copied from the
config and sorted once, no session decision, adaptive counters zeroed and
`adaptiveRate` initialised to `1.0`. -/
def mkSamplingManager (cfg : SamplingConfig) (rules : List SamplingRule) :
    SamplingManager :=
  { config := cfg
    rules := sortRules rules
    sessionSampled := none
    sessionDecision := none
    errorCount := 0
    totalEvents := 0
    adaptiveRate := 1 }

/-- `randomSample(rate)` with the `Math.random()` draw passed in as `rand`:
rate ≥ 1 samples without consuming randomness, rate ≤ 0 never samples,
otherwise compares the draw against the rate. -/
def randomSample (rate : ℚ) (rand : ℚ) : Bool :=
  if rate ≥ 1 then true
  else if rate ≤ 0 then false
  else rand < rate

/-- The effective rate of the global fallback (lines 147-149 of
src/sampling.ts, also `getGlobalRate()`): the adaptive rate when adaptive
sampling is enabled, else the configured global rate. -/
def effectiveRate (m : SamplingManager) : ℚ :=
  if m.config.adaptiveSampling then m.adaptiveRate else m.config.globalRate

/-- `shouldSample(context)` from src/sampling.ts, with the `Math.random()`
draw passed in as `rand` (at most one draw is consumed per call): error
override, then slow-session override, then the first matching rule in the
sorted rule list, then the global/adaptive fallback. -/
def shouldSample (m : SamplingManager) (ctx : SamplingContext) (rand : ℚ) :
    SamplingDecision :=
  if m.config.alwaysSampleErrors && ctx.hasError then
    { sampled := true, appliedRate := 1, reason := .error }
  else if m.config.alwaysSampleSlowSessions && ctx.isSlowSession then
    { sampled := true, appliedRate := 1, reason := .slowSession }
  else
    match m.rules.find? (fun r => r.matchFn ctx) with
    | some r =>
      { sampled := randomSample r.rate rand, matchedRule := some r.name,
        appliedRate := r.rate, reason := .rule }
    | none =>
      { sampled := randomSample (effectiveRate m) rand,
        appliedRate := effectiveRate m, reason := .global }

/-- `shouldSampleSession(context)`: returns the cached decision if one
exists, else evaluates `shouldSample` once and caches the result. -/
def shouldSampleSession (m : SamplingManager) (ctx : SamplingContext)
    (rand : ℚ) : Bool × SamplingManager :=
  match m.sessionSampled with
  | some b => (b, m)
  | none =>
    let d := shouldSample m ctx rand
    (d.sampled,
     { m with sessionSampled := some d.sampled, sessionDecision := some d })

/-- `forceSampleSession()`: unconditionally caches a sampled decision with
reason `forced`. -/
def forceSampleSession (m : SamplingManager) : SamplingManager :=
  { m with
    sessionSampled := some true
    sessionDecision := some { sampled := true, appliedRate := 1, reason := .forced } }

/-- `resetSession()`: clears the cached session decision. -/
def resetSession (m : SamplingManager) : SamplingManager :=
  { m with sessionSampled := none, sessionDecision := none }

/-- `addRule(rule)`: push the rule and re-sort (stable). -/
def addRule (m : SamplingManager) (r : SamplingRule) : SamplingManager :=
  { m with rules := sortRules (m.rules ++ [r]) }

/-- `adjustAdaptiveRate()` from src/sampling.ts, as the value assigned to
`this.adaptiveRate`: below 100 total events the configured global rate;
otherwise the band chosen by the observed error rate, floored at the
configured global rate. -/
def computeAdaptiveRate (m : SamplingManager) : ℚ :=
  if m.totalEvents < 100 then m.config.globalRate
  else
    let errorRate : ℚ := (m.errorCount : ℚ) / (m.totalEvents : ℚ)
    let band : ℚ :=
      if errorRate > 5 / 100 then 1
      else if errorRate > 1 / 100 then 1 / 2
      else if errorRate > 1 / 1000 then 1 / 4
      else 1 / 10
    max band m.config.globalRate

/-- `recordEvent(hasError)`: bump the counters, then re-adjust the adaptive
rate when adaptive sampling is enabled. -/
def recordEvent (m : SamplingManager) (hasError : Bool) : SamplingManager :=
  let m1 := { m with
    totalEvents := m.totalEvents + 1
    errorCount := m.errorCount + (if hasError then 1 else 0) }
  if m1.config.adaptiveSampling then { m1 with adaptiveRate := computeAdaptiveRate m1 }
  else m1

/-- A sequence of `recordEvent` calls. -/
def recordEvents (m : SamplingManager) (evs : List Bool) : SamplingManager :=
  evs.foldl recordEvent m

/-! ## Privacy module (src/privacy.ts)

The regex pipeline of `maskPII` (pattern matching plus the configured
masking strategy) enters the claims only as the text-masking function that
is applied to non-sensitive strings, so it is carried as an explicit
function argument `mt : Str → Str`; quantifying over `mt` covers every
masking strategy, `partial` and `hash` included. Everything else is
embedded concretely. -/

/-- The fixed redaction placeholder `'[REDACTED]'`. -/
def REDACTED : Str := "[REDACTED]".toList

/-- `DEFAULT_PRIVACY_CONFIG.sensitiveFields`. -/
def defaultSensitiveFields : List Str :=
  ["password", "pwd", "pass", "secret", "token", "apiKey", "api_key",
   "authorization", "auth", "accessToken", "access_token", "refreshToken",
   "refresh_token", "creditCard", "credit_card", "cardNumber", "card_number",
   "cvv", "cvc", "ssn", "socialSecurity", "social_security"].map String.toList

/-- `DEFAULT_PRIVACY_CONFIG.sensitiveUrlParams`. -/
def defaultSensitiveUrlParams : List Str :=
  ["password", "pwd", "pass", "secret", "token", "api_key", "apikey",
   "api-key", "auth", "authorization", "access_token", "refresh_token",
   "session", "sessionid", "session_id", "credit_card", "creditcard", "cc",
   "cvv", "ssn", "social_security", "email", "phone", "mobile"].map String.toList

/-- JS `String.prototype.toLowerCase` on the character list. -/
def strToLower (s : Str) : Str := s.map Char.toLower

/-- Whether `needle` occurs at the start of `hay`. -/
def strStartsWith : Str → Str → Bool
  | _, [] => true
  | [], _ :: _ => false
  | h :: hs, n :: ns => h == n && strStartsWith hs ns

/-- JS `String.prototype.includes`: contiguous-substring test. -/
def strIncludes : Str → Str → Bool
  | [], needle => needle.isEmpty
  | hay@(_ :: t), needle => strStartsWith hay needle || strIncludes t needle

/-- `isSensitiveField(fieldName, sensitiveFields)` from src/privacy.ts:
case-insensitive equality with, or containment of, any entry. -/
def isSensitiveField (fieldName : Str) (sensitiveFields : List Str) : Bool :=
  let lower := strToLower fieldName
  sensitiveFields.any fun sensitive =>
    lower == strToLower sensitive || strIncludes lower (strToLower sensitive)

/-- JS values as passed to `maskObject`: the acyclic fragment. -/
inductive JValue where
  | jnull
  | jundef
  | jbool (b : Bool)
  | jnum (q : ℚ)
  | jstr (s : Str)
  | jarr (elems : List JValue)
  | jobj (fields : List (Str × JValue))
deriving Repr

/-- Whether the `key` argument of the inner `mask` closure triggers the
sensitive-field check (`key && this.isSensitiveField(key, sensitiveFields)`). -/
def keyIsSensitive (sens : List Str) : Option Str → Bool
  | none => false
  | some k => isSensitiveField k sens

mutual

/-- The inner `mask(value, key?)` closure of `maskObject` in src/privacy.ts,
in source order: `null`/`undefined` values are returned as they are; then a
sensitive key redacts the whole value; strings go through text masking;
arrays recurse element-wise without a key; objects recurse entry-wise with
each entry's key; every other value is returned unchanged. -/
def maskValue (sens : List Str) (mt : Str → Str) : Option Str → JValue → JValue
  | _, .jnull => .jnull
  | _, .jundef => .jundef
  | key, .jbool b =>
    if keyIsSensitive sens key then .jstr REDACTED else .jbool b
  | key, .jnum q =>
    if keyIsSensitive sens key then .jstr REDACTED else .jnum q
  | key, .jstr s =>
    if keyIsSensitive sens key then .jstr REDACTED else .jstr (mt s)
  | key, .jarr es =>
    if keyIsSensitive sens key then .jstr REDACTED else .jarr (maskElems sens mt es)
  | key, .jobj fs =>
    if keyIsSensitive sens key then .jstr REDACTED else .jobj (maskEntries sens mt fs)

/-- `value.map((item) => mask(item))` for arrays. -/
def maskElems (sens : List Str) (mt : Str → Str) : List JValue → List JValue
  | [] => []
  | v :: vs => maskValue sens mt none v :: maskElems sens mt vs

/-- The `Object.entries` loop for objects: each entry keeps its key and its
value is masked with that key. -/
def maskEntries (sens : List Str) (mt : Str → Str) :
    List (Str × JValue) → List (Str × JValue)
  | [] => []
  | (k, v) :: fs => (k, maskValue sens mt (some k) v) :: maskEntries sens mt fs

end

/-- `maskObject(obj, additionalFields)` from src/privacy.ts: returns the
argument unchanged when masking is disabled or the argument is falsy or not
an object; otherwise masks with the configured sensitive fields plus the
additional ones. -/
def maskObject (enabled : Bool) (sensitiveFields : List Str) (mt : Str → Str)
    (additionalFields : List Str) (obj : JValue) : JValue :=
  if !enabled then obj
  else
    match obj with
    | .jnull => obj
    | .jundef => obj
    | .jbool _ => obj
    | .jnum _ => obj
    | .jstr _ => obj
    | _ => maskValue (sensitiveFields ++ additionalFields) mt none obj

/-- The claim's redaction property, read off the output: at every nesting
depth, every object entry whose key is sensitive holds the redaction
placeholder — except that entries whose value is `null`/`undefined` keep it
(the amendment the code forces). -/
inductive SensRedacted (sens : List Str) : JValue → Prop where
  | jnull : SensRedacted sens .jnull
  | jundef : SensRedacted sens .jundef
  | jbool (b) : SensRedacted sens (.jbool b)
  | jnum (q) : SensRedacted sens (.jnum q)
  | jstr (s) : SensRedacted sens (.jstr s)
  | jarr (es) (h : ∀ v ∈ es, SensRedacted sens v) : SensRedacted sens (.jarr es)
  | jobj (fs)
      (hred : ∀ kv ∈ fs, isSensitiveField kv.1 sens = true →
        kv.2 = .jstr REDACTED ∨ kv.2 = .jnull ∨ kv.2 = .jundef)
      (hrec : ∀ kv ∈ fs, SensRedacted sens kv.2) :
      SensRedacted sens (.jobj fs)

/-! ### URL scrubbing (`scrubUrl`)

The browser's `new URL(url, window.location.origin)` parser and the `href`
serialisation are environment primitives, carried as explicit function
arguments; the scrubbing logic itself is embedded concretely over the
parsed components. -/

/-- The components of a parsed `URL` object that `scrubUrl` touches:
`searchParams` as the ordered entry list, `pathname` and `hash`. -/
structure URLParts where
  params : List (Str × Str)
  pathname : Str
  hash : Str
deriving Repr, DecidableEq

/-- `URLSearchParams.has(name)`. -/
def spHas (ps : List (Str × Str)) (name : Str) : Bool :=
  ps.any fun p => p.1 == name

/-- `URLSearchParams.set(name, value)`: overwrite the first entry with that
name in place, drop any further entries with that name, append when
absent. -/
def spSet (name value : Str) : List (Str × Str) → List (Str × Str)
  | [] => [(name, value)]
  | p :: ps =>
    if p.1 == name then (name, value) :: ps.filter (fun q => !(q.1 == name))
    else p :: spSet name value ps

/-- The query-parameter loop of `scrubUrl`: for each configured sensitive
parameter that is present, set its value to the placeholder and mark the
URL as modified. -/
def scrubParams (sens : List Str) (u : URLParts × Bool) : URLParts × Bool :=
  sens.foldl
    (fun acc p =>
      if spHas acc.1.params p then
        ({ acc.1 with params := spSet p REDACTED acc.1.params }, true)
      else acc)
    u

/-- The try-branch of `scrubUrl` on a successfully parsed URL: scrub the
sensitive query parameters, mask PII in the pathname, and mask PII in the
hash when it is nonempty; returns the updated components and the
`modified` flag. -/
def scrubUrlParts (sens : List Str) (mt : Str → Str) (u : URLParts) :
    URLParts × Bool :=
  let pr := scrubParams sens (u, false)
  let u1 := pr.1
  let m1 := pr.2
  let p2 := mt u1.pathname
  let u2 := if p2 == u1.pathname then u1 else { u1 with pathname := p2 }
  let m2 := m1 || !(p2 == u1.pathname)
  let u3 :=
    if u2.hash.isEmpty then u2
    else if mt u2.hash == u2.hash then u2 else { u2 with hash := mt u2.hash }
  let m3 := m2 || (!u2.hash.isEmpty && !(mt u2.hash == u2.hash))
  (u3, m3)

/-- `scrubUrl(url)` from src/privacy.ts: unchanged when disabled or empty;
when the URL parses, scrub its components and serialise them (`href`) if
anything changed, returning the original string otherwise; when parsing
fails, fall back to plain text masking of the whole string — the catch
branch, so the function never throws. -/
def scrubUrl (parse : Str → Option URLParts) (href : URLParts → Str)
    (enabled : Bool) (sens : List Str) (mt : Str → Str) (url : Str) : Str :=
  if !enabled || url.isEmpty then url
  else
    match parse url with
    | none => mt url
    | some u =>
      let r := scrubUrlParts sens mt u
      if r.2 then href r.1 else url

/-! ### Heap model of `maskObject` for the frame claim

To express that `maskObject` never mutates its argument, the object graph
is made explicit: JS object and array values are references into a heap,
and the recursive `mask` closure is re-read as a heap transformer whose
only heap operation is allocating the fresh objects and arrays it builds
(`const result = {}` / `value.map(...)`); it writes to those fresh cells
only. Allocation appends at the end of the heap. The `fuel` argument
models the finite JS call stack: the source recursion is unbounded and
relies on acyclic input, and no heap write happens either way. -/

/-- A JS value: primitives are immediate, objects and arrays are
references into the heap. -/
inductive JSVal where
  | vnull
  | vundef
  | vbool (b : Bool)
  | vnum (q : ℚ)
  | vstr (s : Str)
  | vref (a : Nat)
deriving Repr, DecidableEq

/-- A heap cell: an array of values or an object with ordered fields. -/
inductive HCell where
  | harr (elems : List JSVal)
  | hobj (fields : List (Str × JSVal))
deriving Repr, DecidableEq

/-- The heap: cell `a` lives at index `a`; allocation appends. -/
abbrev Heap := List HCell

/-- The inner `mask(value, key?)` closure of `maskObject`, as a heap
transformer, in source order: `null`/`undefined` pass through, a sensitive
key redacts, strings are text-masked, an array reference is dereferenced
and a fresh array of the masked elements is allocated, an object reference
is dereferenced and a fresh object with the masked entries is allocated,
anything else passes through. Dereferencing never writes; the only heap
operations are the two allocations of fresh cells. -/
def maskValH (sens : List Str) (mt : Str → Str) :
    Nat → Heap → Option Str → JSVal → Heap × JSVal
  | 0, h, _, v => (h, v)
  | fuel + 1, h, key, v =>
    match v with
    | .vnull => (h, v)
    | .vundef => (h, v)
    | .vbool b =>
      if keyIsSensitive sens key then (h, .vstr REDACTED) else (h, .vbool b)
    | .vnum q =>
      if keyIsSensitive sens key then (h, .vstr REDACTED) else (h, .vnum q)
    | .vstr s =>
      if keyIsSensitive sens key then (h, .vstr REDACTED) else (h, .vstr (mt s))
    | .vref a =>
      if keyIsSensitive sens key then (h, .vstr REDACTED)
      else
        match h[a]? with
        | some (.harr es) =>
          let r := es.foldl
            (fun (acc : Heap × List JSVal) e =>
              let r1 := maskValH sens mt fuel acc.1 none e
              (r1.1, acc.2 ++ [r1.2]))
            (h, [])
          (r.1 ++ [.harr r.2], .vref r.1.length)
        | some (.hobj fs) =>
          let r := fs.foldl
            (fun (acc : Heap × List (Str × JSVal)) kv =>
              let r1 := maskValH sens mt fuel acc.1 (some kv.1) kv.2
              (r1.1, acc.2 ++ [(kv.1, r1.2)]))
            (h, [])
          (r.1 ++ [.hobj r.2], .vref r.1.length)
        | none => (h, v)

/-- `maskObject` over the heap model: unchanged heap and value when
disabled or when the argument is falsy or not an object reference. -/
def maskObjectH (enabled : Bool) (sensitiveFields : List Str) (mt : Str → Str)
    (additionalFields : List Str) (fuel : Nat) (h : Heap) (obj : JSVal) :
    Heap × JSVal :=
  if !enabled then (h, obj)
  else
    match obj with
    | .vref _ => maskValH (sensitiveFields ++ additionalFields) mt fuel h none obj
    | _ => (h, obj)

/-! ## Claim C9: `adopt(context)` -/

/-- C9 (counterexample): `adoptContext` does not replace the manager's
context wholesale. With a manager holding `traceState = "a"` and an adopted
context carrying no trace state, the manager's context after the call still
holds `traceState = "a"` and so differs from the adopted context. -/
theorem adoptContext_counterexample :
    getContext (adoptContext
      { traceId := ['1'], spanId := ['2'], sampled := true, traceState := some ['a'] }
      { traceId := ['3'], spanId := ['4'], sampled := false, traceState := none }) ≠
    { traceId := ['3'], spanId := ['4'], sampled := false, traceState := none } := by
  decide

/-- C9 (amended): `adoptContext` replaces the trace id, span id and sampled
flag with the fields of the argument; the trace state is replaced only when
the adopted context carries a truthy (present and nonempty) trace state,
and is retained otherwise. -/
theorem adoptContext_spec (m : TracingManager) (c : TraceContext) :
    getContext (adoptContext m c) =
      { traceId := c.traceId, spanId := c.spanId, sampled := c.sampled,
        traceState := if optStrTruthy c.traceState then c.traceState else m.traceState } :=
  rfl

/-! ## Claim C3: session sampling state machine -/

/-- C3: the session decision moves forward only. First conjunct: after any
`shouldSampleSession` call, every later `shouldSampleSession` call returns
the very same decision and leaves the manager unchanged, regardless of its
context and randomness (memoization: the first call fixed the decision).
Second conjunct: `forceSampleSession` caches a sampled decision with reason
`forced`. Third conjunct: after forcing, any later `shouldSampleSession`
returns `true` and cannot flip the decision; `shouldSample` itself never
touches the session cache (it is state-free in this embedding), so no later
evaluation can set the session's `sampled` to `false` until
`resetSession`. -/
theorem sessionSampling_state_machine :
    (∀ (m : SamplingManager) (ctx₁ ctx₂ : SamplingContext) (r₁ r₂ : ℚ),
      shouldSampleSession (shouldSampleSession m ctx₁ r₁).2 ctx₂ r₂ =
        ((shouldSampleSession m ctx₁ r₁).1, (shouldSampleSession m ctx₁ r₁).2))
  ∧ (∀ m : SamplingManager,
      (forceSampleSession m).sessionSampled = some true ∧
      (forceSampleSession m).sessionDecision =
        some { sampled := true, appliedRate := 1, reason := .forced })
  ∧ (∀ (m : SamplingManager) (ctx : SamplingContext) (r : ℚ),
      shouldSampleSession (forceSampleSession m) ctx r = (true, forceSampleSession m)) := by
  refine ⟨fun m ctx₁ ctx₂ r₁ r₂ => ?_, fun m => ⟨rfl, rfl⟩, fun m ctx r => rfl⟩
  cases h : m.sessionSampled with
  | some b => simp [shouldSampleSession, h]
  | none => simp [shouldSampleSession, h]

/-! ## Claim C1: id generation -/

/-- Every hex digit produced for a value below 16 is a lowercase hex
character. -/
theorem hexDigit_isLowerHex : ∀ n < 16, isLowerHexChar (hexDigit n) = true := by
  decide

/-- C1 (counterexample): `generateHexString` does not regenerate on the
all-zero draw. When the entropy source yields 16 zero bytes,
`generateTraceId()` returns the all-zero 32-character string, and when it
yields 8 zero bytes, `generateSpanId()` returns the all-zero 16-character
string — so the manager's ids are not guaranteed to be nonzero. -/
theorem generateHexString_allZero_counterexample :
    generateTraceIdCrypto (List.replicate 16 0) = allZeros 32 ∧
    generateSpanIdCrypto (List.replicate 8 0) = allZeros 16 := by
  decide

/-- C1 (amended): `generateTraceId()` / `generateSpanId()` produce 32- and
16-character strings of lowercase hex characters on the crypto path (given
the 16 or 8 bytes drawn), and the `Math.random` fallback likewise produces
one lowercase hex character per drawn digit; but no path re-draws on the
all-zero case, so an all-zero output is possible. -/
theorem generateHexString_shape (bytes16 bytes8 draws : List Nat)
    (h16 : bytes16.length = 16) (hb16 : ∀ b ∈ bytes16, b < 256)
    (h8 : bytes8.length = 8) (hb8 : ∀ b ∈ bytes8, b < 256)
    (hd : ∀ d ∈ draws, d < 16) :
    (generateTraceIdCrypto bytes16).length = 32 ∧
    (∀ c ∈ generateTraceIdCrypto bytes16, isLowerHexChar c = true) ∧
    (generateSpanIdCrypto bytes8).length = 16 ∧
    (∀ c ∈ generateSpanIdCrypto bytes8, isLowerHexChar c = true) ∧
    (generateHexStringFallback draws).length = draws.length ∧
    (∀ c ∈ generateHexStringFallback draws, isLowerHexChar c = true) := by
  have hlen : ∀ (bytes : List Nat),
      (generateHexStringCrypto bytes).length = 2 * bytes.length := by
    intro bytes
    simp only [generateHexStringCrypto, List.length_flatten, List.map_map]
    have : (bytes.map (List.length ∘ byteToHex)) = List.replicate bytes.length 2 := by
      induction bytes with
      | nil => simp
      | cons b bs ih => simp [byteToHex, ih, List.replicate_succ]
    rw [this, List.sum_replicate, smul_eq_mul, Nat.mul_comm]
  have hhex : ∀ (bytes : List Nat), (∀ b ∈ bytes, b < 256) →
      ∀ c ∈ generateHexStringCrypto bytes, isLowerHexChar c = true := by
    intro bytes hb c hc
    simp only [generateHexStringCrypto, List.mem_flatten, List.mem_map] at hc
    obtain ⟨l, ⟨b, hbmem, rfl⟩, hcl⟩ := hc
    have hb' := hb b hbmem
    have h1 : b / 16 < 16 := Nat.div_lt_of_lt_mul (by omega)
    have h2 : b % 16 < 16 := Nat.mod_lt _ (by omega)
    simp only [byteToHex, List.mem_cons, List.mem_singleton] at hcl
    rcases hcl with rfl | rfl | h
    · exact hexDigit_isLowerHex _ h1
    · exact hexDigit_isLowerHex _ h2
    · cases h
  refine ⟨?_, hhex bytes16 hb16, ?_, hhex bytes8 hb8, ?_, ?_⟩
  · rw [generateTraceIdCrypto, hlen, h16]
  · rw [generateSpanIdCrypto, hlen, h8]
  · simp [generateHexStringFallback]
  · intro c hc
    simp only [generateHexStringFallback, List.mem_map] at hc
    obtain ⟨d, hdm, rfl⟩ := hc
    exact hexDigit_isLowerHex _ (hd d hdm)

/-- C1 (witness): the amended theorem evaluated at a concrete entropy
draw. -/
theorem generateHexString_shape_witness :
    (generateTraceIdCrypto (List.replicate 16 255)).length = 32 ∧
    (∀ c ∈ generateTraceIdCrypto (List.replicate 16 255), isLowerHexChar c = true) ∧
    (generateSpanIdCrypto (List.replicate 8 171)).length = 16 ∧
    (∀ c ∈ generateSpanIdCrypto (List.replicate 8 171), isLowerHexChar c = true) ∧
    (generateHexStringFallback [0, 15, 7]).length = [0, 15, 7].length ∧
    (∀ c ∈ generateHexStringFallback [0, 15, 7], isLowerHexChar c = true) :=
  generateHexString_shape (List.replicate 16 255) (List.replicate 8 171) [0, 15, 7]
    (by decide) (by decide) (by decide) (by decide) (by decide)

/-! ## Claim C2: adaptive sampling rate -/

/-- A single `recordEvent` bumps the counters and keeps the
configuration. -/
theorem recordEvent_counts (m : SamplingManager) (e : Bool) :
    (recordEvent m e).totalEvents = m.totalEvents + 1 ∧
    (recordEvent m e).errorCount = m.errorCount + (if e then 1 else 0) ∧
    (recordEvent m e).config = m.config := by
  simp only [recordEvent]
  split <;> simp

/-- Counters and configuration after a sequence of `recordEvent` calls. -/
theorem recordEvents_counts (evs : List Bool) :
    ∀ m : SamplingManager,
      (recordEvents m evs).totalEvents = m.totalEvents + evs.length ∧
      (recordEvents m evs).errorCount =
        m.errorCount + (evs.filter (fun b => b)).length ∧
      (recordEvents m evs).config = m.config := by
  induction evs with
  | nil => intro m; simp [recordEvents]
  | cons e rest ih =>
    intro m
    have hstep := recordEvent_counts m e
    have hr := ih (recordEvent m e)
    simp only [recordEvents, List.foldl_cons] at *
    refine ⟨?_, ?_, ?_⟩
    · rw [hr.1, hstep.1]; simp only [List.length_cons]; omega
    · rw [hr.2.1, hstep.2.1, List.filter_cons]
      cases e <;> (simp; try omega)
    · rw [hr.2.2, hstep.2.2]

/-- C2 (counterexample): with adaptive sampling enabled and a configured
global rate of `1/2`, a fresh manager has recorded fewer than 100 events
(namely zero), yet the effective rate used by the global fallback is the
constructor's initial `1.0`, not the configured global rate. -/
theorem adaptiveRate_initial_counterexample :
    (mkSamplingManager
      { globalRate := 1/2, alwaysSampleErrors := true,
        alwaysSampleSlowSessions := true, slowSessionThresholdMs := 5000,
        adaptiveSampling := true } []).totalEvents < 100 ∧
    effectiveRate (mkSamplingManager
      { globalRate := 1/2, alwaysSampleErrors := true,
        alwaysSampleSlowSessions := true, slowSessionThresholdMs := 5000,
        adaptiveSampling := true } []) = 1 ∧
    (1 : ℚ) ≠ 1/2 := by
  refine ⟨by norm_num [mkSamplingManager], rfl, by norm_num⟩

/-- C2 (amended): once at least one event has been recorded on a manager
with adaptive sampling enabled, the adaptive rate — which is exactly the
effective rate of the global fallback — is the configured global rate while
the recorded-event count is below 100, and from 100 events on it is the
maximum of the configured global rate and the band selected by the observed
error rate: `1.0` above 5%, `0.5` above 1%, `0.25` above 0.1%, else `0.1`.
Before the first `recordEvent`, the rate still holds the constructor's
initial `1.0` (the correction the code forces on the claim). -/
theorem adaptiveRate_after_recordEvents (cfg : SamplingConfig)
    (rules : List SamplingRule) (evs : List Bool)
    (hA : cfg.adaptiveSampling = true) (hne : evs ≠ []) :
    (recordEvents (mkSamplingManager cfg rules) evs).totalEvents = evs.length ∧
    (recordEvents (mkSamplingManager cfg rules) evs).errorCount =
      (evs.filter (fun b => b)).length ∧
    (recordEvents (mkSamplingManager cfg rules) evs).adaptiveRate =
      (if evs.length < 100 then cfg.globalRate
       else
         max
           (if (((evs.filter (fun b => b)).length : ℚ) / (evs.length : ℚ)) > 5/100 then 1
            else if (((evs.filter (fun b => b)).length : ℚ) / (evs.length : ℚ)) > 1/100 then 1/2
            else if (((evs.filter (fun b => b)).length : ℚ) / (evs.length : ℚ)) > 1/1000 then 1/4
            else 1/10)
           cfg.globalRate) ∧
    effectiveRate (recordEvents (mkSamplingManager cfg rules) evs) =
      (recordEvents (mkSamplingManager cfg rules) evs).adaptiveRate := by
  obtain ⟨l, e, rfl⟩ : ∃ l e, evs = l ++ [e] := by
    rcases List.eq_nil_or_concat evs with h | ⟨l, e, h⟩
    · exact absurd h hne
    · exact ⟨l, e, by simpa [List.concat_eq_append] using h⟩
  have hcounts := recordEvents_counts (l ++ [e]) (mkSamplingManager cfg rules)
  have h0 : (mkSamplingManager cfg rules).totalEvents = 0 := rfl
  have h1 : (mkSamplingManager cfg rules).errorCount = 0 := rfl
  have h2 : (mkSamplingManager cfg rules).config = cfg := rfl
  have hT : (recordEvents (mkSamplingManager cfg rules) (l ++ [e])).totalEvents =
      (l ++ [e]).length := by rw [hcounts.1, h0, Nat.zero_add]
  have hE : (recordEvents (mkSamplingManager cfg rules) (l ++ [e])).errorCount =
      ((l ++ [e]).filter (fun b => b)).length := by rw [hcounts.2.1, h1, Nat.zero_add]
  have hC : (recordEvents (mkSamplingManager cfg rules) (l ++ [e])).config = cfg :=
    hcounts.2.2
  refine ⟨hT, hE, ?_, ?_⟩
  · -- the last recordEvent recomputed the adaptive rate from the final counters
    have hsplit : recordEvents (mkSamplingManager cfg rules) (l ++ [e]) =
        recordEvent (recordEvents (mkSamplingManager cfg rules) l) e := by
      simp [recordEvents, List.foldl_append]
    set mPrev := recordEvents (mkSamplingManager cfg rules) l with hmPrev
    have hPrevCounts := recordEvents_counts l (mkSamplingManager cfg rules)
    have hPrevC : mPrev.config = cfg := hPrevCounts.2.2
    have hPrevT : mPrev.totalEvents = l.length := by
      rw [hmPrev, hPrevCounts.1, h0, Nat.zero_add]
    have hPrevE : mPrev.errorCount = (l.filter (fun b => b)).length := by
      rw [hmPrev, hPrevCounts.2.1, h1, Nat.zero_add]
    rw [hsplit]
    simp only [recordEvent, hPrevC, hA, if_true]
    simp only [computeAdaptiveRate, hPrevT, hPrevE]
    have hTlen : l.length + 1 = (l ++ [e]).length := by simp
    have hElen : (l.filter (fun b => b)).length + (if e then 1 else 0) =
        ((l ++ [e]).filter (fun b => b)).length := by
      cases e <;> simp [List.filter_append]
    rw [hTlen, hElen]
  · simp only [effectiveRate, hC, hA, if_true]

/-- C2 (witness): the amended theorem at a concrete input. One recorded
error on an adaptive manager with global rate `1/3` leaves the effective
rate at the configured global rate (1 event < 100). -/
theorem adaptiveRate_after_recordEvents_witness :
    (recordEvents (mkSamplingManager
      { globalRate := 1/3, alwaysSampleErrors := true,
        alwaysSampleSlowSessions := true, slowSessionThresholdMs := 5000,
        adaptiveSampling := true } []) [true]).adaptiveRate = 1/3 ∧
    effectiveRate (recordEvents (mkSamplingManager
      { globalRate := 1/3, alwaysSampleErrors := true,
        alwaysSampleSlowSessions := true, slowSessionThresholdMs := 5000,
        adaptiveSampling := true } []) [true]) = 1/3 := by
  have h := adaptiveRate_after_recordEvents
    { globalRate := 1/3, alwaysSampleErrors := true,
      alwaysSampleSlowSessions := true, slowSessionThresholdMs := 5000,
      adaptiveSampling := true } [] [true] rfl (by simp)
  refine ⟨h.2.2.1.trans (by norm_num), h.2.2.2.trans (h.2.2.1.trans (by norm_num))⟩

/-! ## Claims C7 and C8: traceparent parsing and the round trip -/

/-- `split` never returns an empty list of fields. -/
theorem splitOnDash_ne_nil (s : Str) : splitOnDash s ≠ [] := by
  induction s with
  | nil => simp [splitOnDash]
  | cons c cs ih =>
    simp only [splitOnDash]
    split
    · simp
    · cases h : splitOnDash cs <;> simp

/-- Splitting a dash-free string yields the string as the single field. -/
theorem splitOnDash_no_dash (s : Str) (h : '-' ∉ s) : splitOnDash s = [s] := by
  induction s with
  | nil => rfl
  | cons c cs ih =>
    have hc : ¬(c = '-') := fun hc => h (hc ▸ List.mem_cons_self c cs)
    have hcs : '-' ∉ cs := fun hm => h (List.mem_cons_of_mem c hm)
    simp only [splitOnDash, if_neg hc, ih hcs]

/-- Splitting peels off a dash-free prefix before a dash. -/
theorem splitOnDash_append (xs rest : Str) (h : '-' ∉ xs) :
    splitOnDash (xs ++ '-' :: rest) = xs :: splitOnDash rest := by
  induction xs with
  | nil => simp [splitOnDash]
  | cons c cs ih =>
    have hc : ¬(c = '-') := fun hc => h (hc ▸ List.mem_cons_self c cs)
    have hcs : '-' ∉ cs := fun hm => h (List.mem_cons_of_mem c hm)
    simp only [List.cons_append, splitOnDash, if_neg hc, List.append_eq, ih hcs]

/-- A string of lowercase hex characters contains no dash. -/
theorem no_dash_of_isLowerHex (n : Nat) (s : Str)
    (h : isLowerHexOfLength n s = true) : '-' ∉ s := by
  intro hmem
  simp only [isLowerHexOfLength, Bool.and_eq_true, List.all_eq_true] at h
  have := h.2 '-' hmem
  simp [isLowerHexChar] at this

/-- Characterisation of `parseTraceparent`: it succeeds exactly on headers
that split into 4 fields with version `"00"`, a 32-char lowercase-hex
non-zero trace id, a 16-char lowercase-hex non-zero span id and 2 hex flag
chars, and then the context carries those fields with the sampled flag
taken from bit 0 of the flags byte. -/
theorem parseTraceparent_some_iff (header : Str) (c : TraceContext) :
    parseTraceparent header = some c ↔
      ∃ t p f, splitOnDash header = [['0', '0'], t, p, f] ∧
        isLowerHexOfLength 32 t = true ∧ t ≠ allZeros 32 ∧
        isLowerHexOfLength 16 p = true ∧ p ≠ allZeros 16 ∧
        isLowerHexOfLength 2 f = true ∧
        c = { traceId := t, spanId := p,
              sampled := (hexVal f &&& 1) == 1, traceState := none } := by
  constructor
  · intro h
    simp only [parseTraceparent] at h
    split at h
    · exact absurd h (by simp)
    · split at h
      next v t p f heq =>
        split at h
        case isTrue hv =>
          split at h
          case isTrue h1 =>
            split at h
            case isTrue h2 =>
              split at h
              case isTrue h3 =>
                simp only [Option.some.injEq] at h
                simp only [Bool.and_eq_true, Bool.not_eq_eq_eq_not, Bool.not_true,
                  beq_eq_false_iff_ne] at h1 h2
                exact ⟨t, p, f, by rw [hv] at heq; exact heq,
                  h1.1, h1.2, h2.1, h2.2, h3, h.symm⟩
              case isFalse => exact absurd h (by simp)
            case isFalse => exact absurd h (by simp)
          case isFalse => exact absurd h (by simp)
        case isFalse => exact absurd h (by simp)
      next => exact absurd h (by simp)
  · rintro ⟨t, p, f, hsplit, h1, h1z, h2, h2z, h3, rfl⟩
    have hne : ¬header.isEmpty := by
      intro he
      rw [List.isEmpty_iff] at he
      rw [he] at hsplit
      simp [splitOnDash] at hsplit
    have hb1 : (t == allZeros 32) = false := beq_eq_false_iff_ne.mpr h1z
    have hb2 : (p == allZeros 16) = false := beq_eq_false_iff_ne.mpr h2z
    simp [parseTraceparent, hne, hsplit, h1, h2, h3, hb1, hb2]

/-- C7: `parseTraceparent` returns a context exactly when the header splits
on `-` into 4 fields, the version is `"00"`, the trace id is 32 lowercase
hex chars and not all zeros, the span id is 16 lowercase hex chars and not
all zeros, and the flags are 2 hex chars; the sampled flag is bit 0 of the
flags byte. Totality of the embedded function reflects that every other
input yields `none` rather than an exception. -/
theorem parseTraceparent_characterization (header : Str) :
    ((parseTraceparent header).isSome ↔
      ∃ t p f, splitOnDash header = [['0', '0'], t, p, f] ∧
        isLowerHexOfLength 32 t = true ∧ t ≠ allZeros 32 ∧
        isLowerHexOfLength 16 p = true ∧ p ≠ allZeros 16 ∧
        isLowerHexOfLength 2 f = true)
  ∧ (∀ c, parseTraceparent header = some c →
      ∃ t p f, splitOnDash header = [['0', '0'], t, p, f] ∧
        c = { traceId := t, spanId := p,
              sampled := (hexVal f &&& 1) == 1, traceState := none }) := by
  constructor
  · constructor
    · intro h
      rw [Option.isSome_iff_exists] at h
      obtain ⟨c, hc⟩ := h
      obtain ⟨t, p, f, hs, h1, h1z, h2, h2z, h3, _⟩ :=
        (parseTraceparent_some_iff header c).1 hc
      exact ⟨t, p, f, hs, h1, h1z, h2, h2z, h3⟩
    · rintro ⟨t, p, f, hs, h1, h1z, h2, h2z, h3⟩
      rw [(parseTraceparent_some_iff header _).2 ⟨t, p, f, hs, h1, h1z, h2, h2z, h3, rfl⟩]
      simp
  · intro c hc
    obtain ⟨t, p, f, hs, _, _, _, _, _, hceq⟩ :=
      (parseTraceparent_some_iff header c).1 hc
    exact ⟨t, p, f, hs, hceq⟩

/-- C7 (witness): the characterisation evaluated on the spec's rejection
example `"00-short-id-01"` (3-field split lengths do not match) and on a
valid header. -/
theorem parseTraceparent_characterization_witness :
    parseTraceparent "00-short-id-01".toList = none ∧
    (parseTraceparent ("00-".toList ++ allZeros 31 ++ ['1'] ++ "-".toList ++
      allZeros 15 ++ ['1'] ++ "-01".toList)).isSome = true := by
  constructor
  · cases h : parseTraceparent "00-short-id-01".toList with
    | none => rfl
    | some c =>
      have hsome : (parseTraceparent "00-short-id-01".toList).isSome = true := by
        rw [h]; rfl
      obtain ⟨t, p, f, hs, hhex, _⟩ :=
        (parseTraceparent_characterization "00-short-id-01".toList).1.1 hsome
      rw [show splitOnDash "00-short-id-01".toList =
        [['0', '0'], "short".toList, "id".toList, "01".toList] from by decide] at hs
      simp only [List.cons.injEq, and_true, true_and] at hs
      rw [← hs.1] at hhex
      exact absurd hhex (by decide)
  · rw [(parseTraceparent_characterization _).1]
    refine ⟨allZeros 31 ++ ['1'], allZeros 15 ++ ['1'], "01".toList, by decide,
      by decide, by decide, by decide, by decide, by decide⟩

/-- C8: round trip. Whenever the manager's current ids are well-formed
(32/16 lowercase hex chars, not all zero), parsing the header produced by
`createTraceparent` with no span override recovers exactly the manager's
trace id, span id and sampled flag. -/
theorem traceparent_roundTrip (m : TracingManager)
    (ht : isLowerHexOfLength 32 m.traceId = true) (ht0 : m.traceId ≠ allZeros 32)
    (hp : isLowerHexOfLength 16 m.spanId = true) (hp0 : m.spanId ≠ allZeros 16) :
    parseTraceparent (createTraceparent m none) =
      some { traceId := m.traceId, spanId := m.spanId, sampled := m.sampled,
             traceState := none } := by
  have hdt : '-' ∉ m.traceId := no_dash_of_isLowerHex 32 _ ht
  have hdp : '-' ∉ m.spanId := no_dash_of_isLowerHex 16 _ hp
  have hflags : ∀ sampled : Bool,
      (if sampled then ['0', '1'] else ['0', '0']) = (['0', '1'] : Str) ∨
      (if sampled then ['0', '1'] else ['0', '0']) = (['0', '0'] : Str) := by
    intro sampled; cases sampled <;> simp
  rw [parseTraceparent_some_iff]
  refine ⟨m.traceId, m.spanId, if m.sampled then ['0', '1'] else ['0', '0'],
    ?_, ht, ht0, hp, hp0, ?_, ?_⟩
  · show splitOnDash (['0', '0'] ++ '-' :: (m.traceId ++ '-' :: (m.spanId ++ '-' ::
      (if m.sampled then ['0', '1'] else ['0', '0'])))) = _
    rw [splitOnDash_append ['0', '0'] _ (by decide),
        splitOnDash_append m.traceId _ hdt,
        splitOnDash_append m.spanId _ hdp,
        splitOnDash_no_dash _ (by rcases hflags m.sampled with h | h <;> rw [h] <;> decide)]
  · rcases hflags m.sampled with h | h <;> rw [h] <;> decide
  · cases hs : m.sampled <;> simp [hs] <;> decide

/-- C8 (witness): the round trip at a concrete manager. -/
theorem traceparent_roundTrip_witness :
    parseTraceparent (createTraceparent
      { traceId := List.replicate 32 'a', spanId := List.replicate 16 'b',
        sampled := true, traceState := none } none) =
      some { traceId := List.replicate 32 'a', spanId := List.replicate 16 'b',
             sampled := true, traceState := none } :=
  traceparent_roundTrip
    { traceId := List.replicate 32 'a', spanId := List.replicate 16 'b',
      sampled := true, traceState := none }
    (by decide) (by decide) (by decide) (by decide)

/-! ## Claim C4: evaluation precedence -/

/-- Membership is preserved by the stable insertion. -/
theorem mem_insertByPriority (r a : SamplingRule) (l : List SamplingRule) :
    a ∈ insertByPriority r l ↔ a = r ∨ a ∈ l := by
  induction l with
  | nil => simp [insertByPriority]
  | cons x xs ih =>
    simp only [insertByPriority]
    split
    · simp only [List.mem_cons, ih]; tauto
    · simp [List.mem_cons]

/-- The stable insertion preserves descending priority order. -/
theorem pairwise_insertByPriority (r : SamplingRule) (l : List SamplingRule)
    (h : l.Pairwise (fun a b => b.priority ≤ a.priority)) :
    (insertByPriority r l).Pairwise (fun a b => b.priority ≤ a.priority) := by
  induction l with
  | nil => simp [insertByPriority]
  | cons x xs ih =>
    rw [List.pairwise_cons] at h
    simp only [insertByPriority]
    split
    case isTrue hle =>
      rw [List.pairwise_cons]
      refine ⟨fun a ha => ?_, ih h.2⟩
      rcases (mem_insertByPriority r a xs).1 ha with rfl | ha'
      · exact hle
      · exact h.1 a ha'
    case isFalse hgt =>
      rw [List.pairwise_cons]
      refine ⟨fun a ha => ?_, List.Pairwise.cons h.1 h.2⟩
      rcases List.mem_cons.1 ha with rfl | ha'
      · exact le_of_lt (lt_of_not_le hgt)
      · exact le_trans (h.1 a ha') (le_of_lt (lt_of_not_le hgt))

/-- `sortRules` always yields a list sorted by descending priority and
keeps exactly the given rules. -/
theorem sortRules_sorted_mem (l : List SamplingRule) :
    (sortRules l).Pairwise (fun a b => b.priority ≤ a.priority) ∧
    (∀ a, a ∈ sortRules l ↔ a ∈ l) := by
  suffices h : ∀ (l acc : List SamplingRule),
      acc.Pairwise (fun a b => b.priority ≤ a.priority) →
      (l.foldl (fun acc r => insertByPriority r acc) acc).Pairwise
        (fun a b => b.priority ≤ a.priority) ∧
      (∀ a, a ∈ l.foldl (fun acc r => insertByPriority r acc) acc ↔
        a ∈ acc ∨ a ∈ l) by
    have := h l [] List.Pairwise.nil
    exact ⟨this.1, fun a => by simpa using this.2 a⟩
  intro l
  induction l with
  | nil =>
    intro acc hacc
    refine ⟨by simpa using hacc, fun a => by simp⟩
  | cons r rest ih =>
    intro acc hacc
    have hstep := pairwise_insertByPriority r acc hacc
    have := ih (insertByPriority r acc) hstep
    refine ⟨this.1, fun a => ?_⟩
    rw [List.foldl_cons, (this.2 a), mem_insertByPriority]
    simp [List.mem_cons]
    tauto

/-- Inserting a rule whose priority is at most every priority in the list
appends it at the end. -/
theorem insertByPriority_append (r : SamplingRule) (acc : List SamplingRule)
    (hx : ∀ a ∈ acc, r.priority ≤ a.priority) :
    insertByPriority r acc = acc ++ [r] := by
  induction acc with
  | nil => rfl
  | cons x xs ih2 =>
    simp only [insertByPriority, if_pos (hx x (List.mem_cons_self x xs)),
      List.cons_append, List.cons.injEq, true_and]
    exact ih2 fun a ha => hx a (List.mem_cons_of_mem x ha)

/-- When all priorities are equal, the stable sort keeps insertion order. -/
theorem sortRules_stable_ties (l : List SamplingRule)
    (h : ∀ a ∈ l, ∀ b ∈ l, a.priority = b.priority) : sortRules l = l := by
  suffices haux : ∀ (rest acc : List SamplingRule),
      (∀ b ∈ rest, ∀ a ∈ acc, b.priority ≤ a.priority) →
      (∀ b ∈ rest, ∀ b' ∈ rest, b.priority = b'.priority) →
      rest.foldl (fun acc r => insertByPriority r acc) acc = acc ++ rest by
    have := haux l [] (fun b _ a ha => absurd ha (List.not_mem_nil a)) h
    simpa [sortRules] using this
  intro rest
  induction rest with
  | nil => intro acc _ _; simp
  | cons r rs ih =>
    intro acc hra hrr
    have h1 : ∀ b ∈ rs, ∀ a ∈ acc ++ [r], b.priority ≤ a.priority := by
      intro b hb a ha
      rcases List.mem_append.1 ha with ha' | ha'
      · exact hra b (List.mem_cons_of_mem r hb) a ha'
      · have heq : a = r := by simpa using ha'
        subst heq
        exact le_of_eq (hrr b (List.mem_cons_of_mem _ hb) a (List.mem_cons_self _ rs))
    have h2 : ∀ b ∈ rs, ∀ b' ∈ rs, b.priority = b'.priority := by
      intro b hb b' hb'
      exact hrr b (List.mem_cons_of_mem r hb) b' (List.mem_cons_of_mem r hb')
    rw [List.foldl_cons,
      insertByPriority_append r acc (hra r (List.mem_cons_self r rs)),
      ih (acc ++ [r]) h1 h2, List.append_assoc, List.singleton_append]

/-- On a list sorted by descending priority, `find?` returns a match of
maximal priority among all matches. -/
theorem find?_max_priority (p : SamplingRule → Bool) (L : List SamplingRule)
    (hL : L.Pairwise (fun a b => b.priority ≤ a.priority))
    (r0 : SamplingRule) (hf : L.find? p = some r0) :
    ∀ r ∈ L, p r = true → r.priority ≤ r0.priority := by
  induction L with
  | nil => simp at hf
  | cons x xs ih =>
    rw [List.pairwise_cons] at hL
    simp only [List.find?] at hf
    split at hf
    · intro r hr _
      have hx : x = r0 := Option.some.inj hf
      subst hx
      rcases List.mem_cons.1 hr with rfl | hr'
      · exact le_refl _
      · exact hL.1 r hr'
    · rename_i hpx
      intro r hr hpr
      rcases List.mem_cons.1 hr with rfl | hr'
      · rw [hpr] at hpx; cases hpx
      · exact ih hL.2 hf r hr' hpr

/-- C4: strict precedence of `shouldSample`. First the error override, then
the slow-session override, then the first matching rule of the
priority-sorted rule list — on any manager whose rules are
priority-sorted, that rule's priority is maximal among all matching rules,
independently of insertion order — and finally the global/adaptive
fallback. The last conjuncts show every manager built by the constructor
or `addRule` carries a priority-sorted rule list with exactly the inserted
rules, and that equal-priority rules keep insertion order. -/
theorem shouldSample_precedence (m : SamplingManager) (ctx : SamplingContext)
    (rand : ℚ) :
    (m.config.alwaysSampleErrors = true → ctx.hasError = true →
      shouldSample m ctx rand =
        { sampled := true, appliedRate := 1, reason := .error })
  ∧ (¬(m.config.alwaysSampleErrors = true ∧ ctx.hasError = true) →
      m.config.alwaysSampleSlowSessions = true → ctx.isSlowSession = true →
      shouldSample m ctx rand =
        { sampled := true, appliedRate := 1, reason := .slowSession })
  ∧ (∀ r0, ¬(m.config.alwaysSampleErrors = true ∧ ctx.hasError = true) →
      ¬(m.config.alwaysSampleSlowSessions = true ∧ ctx.isSlowSession = true) →
      m.rules.find? (fun r => r.matchFn ctx) = some r0 →
      shouldSample m ctx rand =
        { sampled := randomSample r0.rate rand, matchedRule := some r0.name,
          appliedRate := r0.rate, reason := .rule } ∧
      (m.rules.Pairwise (fun a b => b.priority ≤ a.priority) →
        ∀ r ∈ m.rules, r.matchFn ctx = true → r.priority ≤ r0.priority))
  ∧ (¬(m.config.alwaysSampleErrors = true ∧ ctx.hasError = true) →
      ¬(m.config.alwaysSampleSlowSessions = true ∧ ctx.isSlowSession = true) →
      m.rules.find? (fun r => r.matchFn ctx) = none →
      shouldSample m ctx rand =
        { sampled := randomSample (effectiveRate m) rand,
          appliedRate := effectiveRate m, reason := .global })
  ∧ (∀ (cfg : SamplingConfig) (rs : List SamplingRule),
      (mkSamplingManager cfg rs).rules.Pairwise (fun a b => b.priority ≤ a.priority) ∧
      (∀ a, a ∈ (mkSamplingManager cfg rs).rules ↔ a ∈ rs))
  ∧ (∀ r : SamplingRule,
      (addRule m r).rules.Pairwise (fun a b => b.priority ≤ a.priority) ∧
      (∀ a, a ∈ (addRule m r).rules ↔ a ∈ m.rules ++ [r]))
  ∧ (∀ rs : List SamplingRule,
      (∀ a ∈ rs, ∀ b ∈ rs, a.priority = b.priority) → sortRules rs = rs) := by
  have hbool : ∀ (x y : Bool), (x && y) = true ↔ x = true ∧ y = true := by decide
  refine ⟨?_, ?_, ?_, ?_, ?_, ?_, sortRules_stable_ties⟩
  · intro h1 h2
    simp [shouldSample, h1, h2]
  · intro hno h1 h2
    have herr : ¬(m.config.alwaysSampleErrors && ctx.hasError) = true := by
      rw [hbool]; exact hno
    simp [shouldSample, herr, h1, h2]
  · intro r0 hno1 hno2 hfind
    have herr : ¬(m.config.alwaysSampleErrors && ctx.hasError) = true := by
      rw [hbool]; exact hno1
    have hslow : ¬(m.config.alwaysSampleSlowSessions && ctx.isSlowSession) = true := by
      rw [hbool]; exact hno2
    constructor
    · simp [shouldSample, herr, hslow, hfind]
    · intro hsorted
      exact find?_max_priority (fun r => r.matchFn ctx) m.rules hsorted r0 hfind
  · intro hno1 hno2 hfind
    have herr : ¬(m.config.alwaysSampleErrors && ctx.hasError) = true := by
      rw [hbool]; exact hno1
    have hslow : ¬(m.config.alwaysSampleSlowSessions && ctx.isSlowSession) = true := by
      rw [hbool]; exact hno2
    simp [shouldSample, herr, hslow, hfind]
  · intro cfg rs
    exact sortRules_sorted_mem rs
  · intro r
    exact sortRules_sorted_mem (m.rules ++ [r])

/-- C4 (witness): two always-matching rules with priorities 10 and 50,
inserted in that order; the precedence theorem applied to the manager shows
the priority-50 rule decides the rate (`1`), independent of the insertion
order, and that its priority bounds every matching rule. -/
theorem shouldSample_precedence_witness :
    shouldSample
      (mkSamplingManager defaultSamplingConfig
        [{ name := "low".toList, matchFn := fun _ => true, rate := 0, priority := 10 },
         { name := "high".toList, matchFn := fun _ => true, rate := 1, priority := 50 }])
      { url := [], hasError := false, isSlowSession := false } 0 =
      { sampled := true, matchedRule := some "high".toList,
        appliedRate := 1, reason := .rule } ∧
    (∀ r ∈ (mkSamplingManager defaultSamplingConfig
        [{ name := "low".toList, matchFn := fun _ => true, rate := 0, priority := 10 },
         { name := "high".toList, matchFn := fun _ => true, rate := 1, priority := 50 }]).rules,
      r.matchFn { url := [], hasError := false, isSlowSession := false } = true →
      r.priority ≤ 50) := by
  have h := (shouldSample_precedence
    (mkSamplingManager defaultSamplingConfig
      [{ name := "low".toList, matchFn := fun _ => true, rate := 0, priority := 10 },
       { name := "high".toList, matchFn := fun _ => true, rate := 1, priority := 50 }])
    { url := [], hasError := false, isSlowSession := false } 0).2.2.1
    { name := "high".toList, matchFn := fun _ => true, rate := 1, priority := 50 }
    (by simp [defaultSamplingConfig, mkSamplingManager])
    (by simp [defaultSamplingConfig, mkSamplingManager])
    (by rfl)
  have hsorted : (mkSamplingManager defaultSamplingConfig
      [{ name := "low".toList, matchFn := fun _ => true, rate := 0, priority := 10 },
       { name := "high".toList, matchFn := fun _ => true, rate := 1, priority := 50 }]).rules.Pairwise
      (fun a b => b.priority ≤ a.priority) :=
    (sortRules_sorted_mem
      [{ name := "low".toList, matchFn := fun _ => true, rate := 0, priority := 10 },
       { name := "high".toList, matchFn := fun _ => true, rate := 1, priority := 50 }]).1
  refine ⟨h.1.trans ?_, h.2 hsorted⟩
  simp [randomSample]

/-! ## Claim C5: field-based redaction in `maskObject` -/

/-- The element recursion is the map of the source's `value.map`. -/
theorem maskElems_eq_map (sens : List Str) (mt : Str → Str) (es : List JValue) :
    maskElems sens mt es = es.map (maskValue sens mt none) := by
  induction es with
  | nil => rfl
  | cons v vs ih => simp [maskElems, ih]

/-- The entry recursion is the map of the source's `Object.entries` loop. -/
theorem maskEntries_eq_map (sens : List Str) (mt : Str → Str)
    (fs : List (Str × JValue)) :
    maskEntries sens mt fs =
      fs.map (fun kv => (kv.1, maskValue sens mt (some kv.1) kv.2)) := by
  induction fs with
  | nil => rfl
  | cons kv fs ih =>
    cases kv
    simp [maskEntries, ih]

/-- A sensitive key redacts every value except `null`/`undefined`. -/
theorem maskValue_sensitive_key (sens : List Str) (mt : Str → Str) (k : Str)
    (v : JValue) (hk : isSensitiveField k sens = true)
    (hn : v ≠ .jnull) (hu : v ≠ .jundef) :
    maskValue sens mt (some k) v = .jstr REDACTED := by
  have hks : keyIsSensitive sens (some k) = true := hk
  cases v with
  | jnull => exact absurd rfl hn
  | jundef => exact absurd rfl hu
  | jbool b => simp [maskValue, hks]
  | jnum q => simp [maskValue, hks]
  | jstr s => simp [maskValue, hks]
  | jarr es => simp [maskValue, hks]
  | jobj fs => simp [maskValue, hks]

/-- Every output of the `mask` closure satisfies the redaction predicate. -/
theorem maskValue_sensRedacted (sens : List Str) (mt : Str → Str) :
    ∀ (n : Nat) (v : JValue), sizeOf v ≤ n → ∀ key,
      SensRedacted sens (maskValue sens mt key v) := by
  intro n
  induction n with
  | zero =>
    intro v hv key
    cases v <;> simp at hv
  | succ n ih =>
    intro v hv key
    cases v with
    | jnull => exact .jnull
    | jundef => exact .jundef
    | jbool b =>
      simp only [maskValue]
      split
      · exact .jstr _
      · exact .jbool _
    | jnum q =>
      simp only [maskValue]
      split
      · exact .jstr _
      · exact .jnum _
    | jstr s =>
      simp only [maskValue]
      split
      · exact .jstr _
      · exact .jstr _
    | jarr es =>
      simp only [maskValue]
      split
      · exact .jstr _
      · refine .jarr _ fun v' hv' => ?_
        rw [maskElems_eq_map] at hv'
        obtain ⟨e, he, rfl⟩ := List.mem_map.1 hv'
        have hlt : sizeOf e < sizeOf (JValue.jarr es) := by
          have := List.sizeOf_lt_of_mem he
          simp only [JValue.jarr.sizeOf_spec]
          omega
        exact ih e (by omega) none
    | jobj fs =>
      simp only [maskValue]
      split
      · exact .jstr _
      · refine .jobj _ (fun kv hkv hks => ?_) (fun kv hkv => ?_)
        · rw [maskEntries_eq_map] at hkv
          obtain ⟨⟨k0, v0⟩, _, rfl⟩ := List.mem_map.1 hkv
          simp only at hks ⊢
          cases v0 with
          | jnull => exact Or.inr (Or.inl rfl)
          | jundef => exact Or.inr (Or.inr rfl)
          | jbool b => exact Or.inl (maskValue_sensitive_key sens mt k0 _ hks (by simp) (by simp))
          | jnum q => exact Or.inl (maskValue_sensitive_key sens mt k0 _ hks (by simp) (by simp))
          | jstr s => exact Or.inl (maskValue_sensitive_key sens mt k0 _ hks (by simp) (by simp))
          | jarr es => exact Or.inl (maskValue_sensitive_key sens mt k0 _ hks (by simp) (by simp))
          | jobj fs2 => exact Or.inl (maskValue_sensitive_key sens mt k0 _ hks (by simp) (by simp))
        · rw [maskEntries_eq_map] at hkv
          obtain ⟨⟨k0, v0⟩, hmem, rfl⟩ := List.mem_map.1 hkv
          have hlt : sizeOf v0 < sizeOf (JValue.jobj fs) := by
            have h1 := List.sizeOf_lt_of_mem hmem
            have h2 : sizeOf (k0, v0) = 1 + sizeOf k0 + sizeOf v0 := by
              simp [Prod.mk.sizeOf_spec]
            simp only [JValue.jobj.sizeOf_spec]
            omega
          exact ih v0 (by omega) (some k0)

/-- C5 (counterexample): under a sensitive key, a `null` value is returned
untouched rather than replaced by the placeholder: the `null`/`undefined`
early return of the `mask` closure precedes the sensitive-key check. -/
theorem maskObject_null_counterexample :
    maskObject true defaultSensitiveFields id [] (.jobj [("password".toList, .jnull)]) =
      .jobj [("password".toList, .jnull)] ∧
    isSensitiveField "password".toList (defaultSensitiveFields ++ []) = true ∧
    JValue.jnull ≠ JValue.jstr REDACTED := by
  refine ⟨rfl, by decide, fun h => JValue.noConfusion h⟩

/-- C5 (amended): with masking enabled, for every text-masking function
(hence for every masking strategy, `partial` and `hash` included) every
keyed entry at any nesting depth whose key is sensitive — case-insensitive
equality with or containment of a configured or additionally supplied
field name — carries the redaction placeholder in the output, except that
`null`/`undefined` values are returned unchanged; a sensitive key over any
other value is wholly redacted, and a non-sensitive string leaf is passed
through text masking instead. -/
theorem maskObject_redaction (sensC add : List Str) (mt : Str → Str)
    (obj : JValue) :
    SensRedacted (sensC ++ add) (maskObject true sensC mt add obj)
  ∧ (∀ k v, isSensitiveField k (sensC ++ add) = true → v ≠ .jnull → v ≠ .jundef →
      maskValue (sensC ++ add) mt (some k) v = .jstr REDACTED)
  ∧ (∀ k s, isSensitiveField k (sensC ++ add) = false →
      maskValue (sensC ++ add) mt (some k) (.jstr s) = .jstr (mt s)) := by
  refine ⟨?_, fun k v hk hn hu => maskValue_sensitive_key _ mt k v hk hn hu,
    fun k s hk => ?_⟩
  · simp only [maskObject, Bool.not_true, Bool.false_eq_true, if_false]
    cases obj with
    | jnull => exact .jnull
    | jundef => exact .jundef
    | jbool b => exact .jbool _
    | jnum q => exact .jnum _
    | jstr s => exact .jstr _
    | jarr es => exact maskValue_sensRedacted _ mt (sizeOf (JValue.jarr es)) _ le_rfl none
    | jobj fs => exact maskValue_sensRedacted _ mt (sizeOf (JValue.jobj fs)) _ le_rfl none
  · have hks : keyIsSensitive (sensC ++ add) (some k) = false := hk
    simp [maskValue, hks]

/-- C5 (witness): the amended theorem at the spec's own example, a
`password` field holding the string `"abc@x.com"`, with the identity as the
text masker: the field is wholly redacted, and a non-sensitive `note` field
is passed through the text masker. -/
theorem maskObject_redaction_witness :
    maskValue (defaultSensitiveFields ++ []) id (some "password".toList)
      (.jstr "abc@x.com".toList) = .jstr REDACTED ∧
    maskValue (defaultSensitiveFields ++ []) id (some "note".toList)
      (.jstr "abc@x.com".toList) = .jstr (id "abc@x.com".toList) :=
  ⟨(maskObject_redaction defaultSensitiveFields [] id .jnull).2.1
      "password".toList (.jstr "abc@x.com".toList) (by decide)
      (fun h => JValue.noConfusion h) (fun h => JValue.noConfusion h),
   (maskObject_redaction defaultSensitiveFields [] id .jnull).2.2
      "note".toList "abc@x.com".toList (by decide)⟩

/-! ## Claim C6: URL scrubbing -/

/-- After `set`, every entry with the set name carries the set value. -/
theorem spSet_value_of_name (name v : Str) (ps : List (Str × Str)) :
    ∀ e ∈ spSet name v ps, e.1 = name → e.2 = v := by
  induction ps with
  | nil =>
    intro e he _
    rw [show e = (name, v) from by simpa [spSet] using he]
  | cons p ps ih =>
    intro e he hname
    simp only [spSet] at he
    split at he
    case isTrue hpn =>
      rcases List.mem_cons.1 he with rfl | he'
      · rfl
      · have := (List.mem_filter.1 he').2
        rw [hname] at this
        simp at this
    case isFalse hpn =>
      rcases List.mem_cons.1 he with rfl | he'
      · rw [hname] at hpn; simp at hpn
      · exact ih e he' hname

/-- `set` does not touch entries whose name differs from the set name:
filtered by any predicate excluding that name, the list is unchanged. -/
theorem spSet_filter_preserved (name v : Str) (ps : List (Str × Str))
    (P : Str × Str → Bool) (hP : ∀ e, P e = true → ¬(e.1 = name)) :
    (spSet name v ps).filter P = ps.filter P := by
  induction ps with
  | nil =>
    have hPv : P (name, v) = false := by
      cases h : P (name, v)
      · rfl
      · exact absurd rfl (hP _ h)
    simp [spSet, List.filter_cons, hPv]
  | cons p ps ih =>
    simp only [spSet]
    split
    case isTrue hpn =>
      have hpe : p.1 = name := by simpa using hpn
      have hPv : P (name, v) = false := by
        cases h : P (name, v)
        · rfl
        · exact absurd rfl (hP _ h)
      have hPp : P p = false := by
        cases h : P p
        · rfl
        · exact absurd hpe (hP _ h)
      rw [List.filter_cons_of_neg (by simp [hPv]),
        List.filter_cons_of_neg (by simp [hPp]), List.filter_filter]
      apply List.filter_congr
      intro a _
      cases h : P a
      · simp
      · simp [hP a h]
    case isFalse hpn =>
      simp only [List.filter_cons, ih]

/-- Unfolding the parameter loop one configured parameter at a time. -/
theorem scrubParams_cons (p : Str) (rest : List Str) (u0 : URLParts × Bool) :
    scrubParams (p :: rest) u0 =
      scrubParams rest
        (if spHas u0.1.params p then
          ({ u0.1 with params := spSet p REDACTED u0.1.params }, true)
        else u0) :=
  rfl

/-- Componentwise extensionality for the URL components. -/
theorem urlParts_ext (a b : URLParts) (h1 : a.params = b.params)
    (h2 : a.pathname = b.pathname) (h3 : a.hash = b.hash) : a = b := by
  cases a; cases b
  simp only [URLParts.mk.injEq]
  exact ⟨h1, h2, h3⟩

/-- The query-parameter loop never touches `pathname` or `hash`. -/
theorem scrubParams_pathname_hash (sens : List Str) :
    ∀ u0 : URLParts × Bool,
      (scrubParams sens u0).1.pathname = u0.1.pathname ∧
      (scrubParams sens u0).1.hash = u0.1.hash := by
  induction sens with
  | nil => intro u0; exact ⟨rfl, rfl⟩
  | cons p rest ih =>
    intro u0
    rw [scrubParams_cons]
    split
    · exact ih _
    · exact ih u0

/-- The query-parameter loop does not touch entries whose name is not a
configured sensitive parameter (same entries, order and values). -/
theorem scrubParams_filter_preserved (sens : List Str) :
    ∀ (u0 : URLParts × Bool) (P : Str × Str → Bool),
      (∀ e, P e = true → ∀ s ∈ sens, ¬(e.1 = s)) →
      (scrubParams sens u0).1.params.filter P = u0.1.params.filter P := by
  induction sens with
  | nil => intro u0 P _; rfl
  | cons p rest ih =>
    intro u0 P hP
    rw [scrubParams_cons]
    have hrest : ∀ e, P e = true → ∀ s ∈ rest, ¬(e.1 = s) :=
      fun e he s hs => hP e he s (List.mem_cons_of_mem p hs)
    split
    · rw [ih _ P hrest]
      exact spSet_filter_preserved p REDACTED u0.1.params P
        (fun e he => hP e he p (List.mem_cons_self p rest))
    · exact ih u0 P hrest

/-- After the query-parameter loop, every entry named by a configured
sensitive parameter carries the placeholder. -/
theorem scrubParams_redacts (sens : List Str) :
    ∀ u0 : URLParts × Bool,
      ∀ e ∈ (scrubParams sens u0).1.params, e.1 ∈ sens → e.2 = REDACTED := by
  induction sens with
  | nil => intro u0 e _ h; simp at h
  | cons p rest ih =>
    intro u0 e he hname
    rw [scrubParams_cons] at he
    by_cases hr : e.1 ∈ rest
    · revert he
      split
      · intro he; exact ih _ e he hr
      · intro he; exact ih u0 e he hr
    · have hp : e.1 = p := by
        rcases List.mem_cons.1 hname with h | h
        · exact h
        · exact absurd h hr
      have hPdef : ∀ e' : Str × Str, (e'.1 == p) = true → ∀ s ∈ rest, ¬(e'.1 = s) := by
        intro e' he' s hs heq
        rw [beq_iff_eq] at he'
        have hps : p = s := he'.symm.trans heq
        apply hr
        rw [hp, hps]
        exact hs
      revert he
      split
      next hhas =>
        intro he
        have hfp := scrubParams_filter_preserved rest
          ({ u0.1 with params := spSet p REDACTED u0.1.params }, true)
          (fun q => q.1 == p) hPdef
        have hmem0 : e ∈ (scrubParams rest
            ({ u0.1 with params := spSet p REDACTED u0.1.params }, true)).1.params.filter
            (fun q => q.1 == p) :=
          List.mem_filter.2 ⟨he, by simp [hp]⟩
        have hmem : e ∈ (spSet p REDACTED u0.1.params).filter (fun q => q.1 == p) :=
          hfp ▸ hmem0
        exact spSet_value_of_name p REDACTED u0.1.params e (List.mem_filter.1 hmem).1 hp
      next hhas =>
        intro he
        have hmem : e ∈ u0.1.params.filter (fun q => q.1 == p) := by
          rw [← scrubParams_filter_preserved rest u0 (fun q => q.1 == p) hPdef]
          exact List.mem_filter.2 ⟨he, by simp [hp]⟩
        have hememu : e ∈ u0.1.params := (List.mem_filter.1 hmem).1
        have hhas' : spHas u0.1.params p = true :=
          List.any_eq_true.2 ⟨e, hememu, by simp [hp]⟩
        rw [hhas'] at hhas
        simp at hhas

/-- Normal form of the scrubbed components: the conditional write-backs of
the source (write only when the masked text differs, mask the hash only
when nonempty) amount to masking both components outright, given that the
masker fixes the empty string (as `maskPII` does). -/
theorem scrubUrlParts_eq (sens : List Str) (mt : Str → Str) (u : URLParts)
    (hmt : mt [] = []) :
    (scrubUrlParts sens mt u).1 =
      { params := (scrubParams sens (u, false)).1.params,
        pathname := mt (scrubParams sens (u, false)).1.pathname,
        hash := mt (scrubParams sens (u, false)).1.hash } := by
  simp only [scrubUrlParts]
  by_cases h1 : (mt (scrubParams sens (u, false)).1.pathname ==
      (scrubParams sens (u, false)).1.pathname) = true
  · rw [if_pos h1]
    have hp1 := beq_iff_eq.1 h1
    by_cases h2 : (scrubParams sens (u, false)).1.hash.isEmpty = true
    · rw [if_pos h2]
      have hh := List.isEmpty_iff.1 h2
      exact urlParts_ext _ _ rfl hp1.symm (by rw [hh, hmt])
    · rw [if_neg h2]
      by_cases h3 : (mt (scrubParams sens (u, false)).1.hash ==
          (scrubParams sens (u, false)).1.hash) = true
      · rw [if_pos h3]
        exact urlParts_ext _ _ rfl hp1.symm (beq_iff_eq.1 h3).symm
      · rw [if_neg h3]
        exact urlParts_ext _ _ rfl hp1.symm rfl
  · rw [if_neg h1]
    by_cases h2 : ({ (scrubParams sens (u, false)).1 with
        pathname := mt (scrubParams sens (u, false)).1.pathname } : URLParts).hash.isEmpty = true
    · rw [if_pos h2]
      have hh : (scrubParams sens (u, false)).1.hash = [] := List.isEmpty_iff.1 h2
      exact urlParts_ext _ _ rfl rfl (by show _ = mt _; rw [hh, hmt])
    · rw [if_neg h2]
      by_cases h3 : (mt ({ (scrubParams sens (u, false)).1 with
          pathname := mt (scrubParams sens (u, false)).1.pathname } : URLParts).hash ==
          ({ (scrubParams sens (u, false)).1 with
          pathname := mt (scrubParams sens (u, false)).1.pathname } : URLParts).hash) = true
      · rw [if_pos h3]
        exact urlParts_ext _ _ rfl rfl (beq_iff_eq.1 h3).symm
      · rw [if_neg h3]

/-- The scrubbed components: params behaviour is that of the parameter
loop, the pathname is text-masked, the hash is text-masked (given that the
masker fixes the empty string, as `maskPII` does). -/
theorem scrubUrlParts_components (sens : List Str) (mt : Str → Str)
    (u : URLParts) (hmt : mt [] = []) :
    (∀ e ∈ (scrubUrlParts sens mt u).1.params, e.1 ∈ sens → e.2 = REDACTED) ∧
    ((scrubUrlParts sens mt u).1.params.filter (fun e => !(sens.contains e.1)) =
      u.params.filter (fun e => !(sens.contains e.1))) ∧
    (scrubUrlParts sens mt u).1.pathname = mt u.pathname ∧
    (scrubUrlParts sens mt u).1.hash = mt u.hash := by
  have hph := scrubParams_pathname_hash sens (u, false)
  rw [scrubUrlParts_eq sens mt u hmt]
  refine ⟨?_, ?_, ?_, ?_⟩
  · intro e he hname
    exact scrubParams_redacts sens (u, false) e he hname
  · refine scrubParams_filter_preserved sens (u, false)
      (fun e => !(sens.contains e.1)) ?_
    intro e he s hs heq
    have hnm : e.1 ∉ sens := by simpa using he
    rw [heq] at hnm
    exact hnm hs
  · rw [hph.1]
  · rw [hph.2]

/-- C6: `scrubUrl` never throws — it is total, and when URL parsing fails
it falls back to plain text masking of the whole string. When parsing
succeeds, every configured sensitive query parameter present has its value
replaced with the placeholder, the remaining query parameters are left
with their entries untouched, the pathname and the fragment are
additionally run through text masking, and the result is the serialisation
of the scrubbed components (the original string when nothing changed). -/
theorem scrubUrl_spec (parse : Str → Option URLParts) (href : URLParts → Str)
    (sens : List Str) (mt : Str → Str) (url : Str)
    (hmt : mt [] = []) (hurl : url ≠ []) :
    (parse url = none → scrubUrl parse href true sens mt url = mt url)
  ∧ (∀ u, parse url = some u →
      (∀ e ∈ (scrubUrlParts sens mt u).1.params, e.1 ∈ sens → e.2 = REDACTED)
      ∧ ((scrubUrlParts sens mt u).1.params.filter (fun e => !(sens.contains e.1)) =
          u.params.filter (fun e => !(sens.contains e.1)))
      ∧ (scrubUrlParts sens mt u).1.pathname = mt u.pathname
      ∧ (scrubUrlParts sens mt u).1.hash = mt u.hash
      ∧ scrubUrl parse href true sens mt url =
          (if (scrubUrlParts sens mt u).2 then href (scrubUrlParts sens mt u).1
           else url)) := by
  have hne : ¬url.isEmpty := by
    rw [List.isEmpty_iff]; exact hurl
  constructor
  · intro hp
    simp [scrubUrl, hne, hp]
  · intro u hp
    obtain ⟨h1, h2, h3, h4⟩ := scrubUrlParts_components sens mt u hmt
    exact ⟨h1, h2, h3, h4, by simp [scrubUrl, hne, hp]⟩

/-- C6 (witness): the spec example `"https://a.com?token=xyz&q=1"` with
`sensitiveUrlParams = ["token"]`: the claim theorem applied at a parse
function returning those components. -/
theorem scrubUrl_spec_witness :
    (∀ e ∈ (scrubUrlParts ["token".toList] id
        { params := [("token".toList, "xyz".toList), ("q".toList, "1".toList)],
          pathname := ['/'], hash := [] }).1.params,
      e.1 ∈ ["token".toList] → e.2 = REDACTED)
    ∧ ((scrubUrlParts ["token".toList] id
        { params := [("token".toList, "xyz".toList), ("q".toList, "1".toList)],
          pathname := ['/'], hash := [] }).1.params.filter
          (fun e => !(["token".toList].contains e.1)) =
        [("token".toList, "xyz".toList), ("q".toList, "1".toList)].filter
          (fun e => !(["token".toList].contains e.1))) :=
  have h := (scrubUrl_spec
    (fun _ => some { params := [("token".toList, "xyz".toList), ("q".toList, "1".toList)],
                     pathname := ['/'], hash := [] })
    (fun _ => []) ["token".toList] id "https://a.com?token=xyz&q=1".toList
    rfl (by decide)).2
    { params := [("token".toList, "xyz".toList), ("q".toList, "1".toList)],
      pathname := ['/'], hash := [] } rfl
  ⟨h.1, h.2.1⟩

/-! ## Claim C10: `maskObject` never mutates its argument -/

/-- A state-threading fold whose every step only extends the heap itself
only extends the heap. -/
theorem foldl_alloc_ext {α β : Type} (step : Heap × List β → α → Heap × List β)
    (hstep : ∀ (p : Heap × List β) (a : α), ∃ ext, (step p a).1 = p.1 ++ ext) :
    ∀ (l : List α) (p : Heap × List β), ∃ ext, (l.foldl step p).1 = p.1 ++ ext := by
  intro l
  induction l with
  | nil => intro p; exact ⟨[], (List.append_nil _).symm⟩
  | cons a l ih =>
    intro p
    obtain ⟨e1, he1⟩ := hstep p a
    obtain ⟨e2, he2⟩ := ih (step p a)
    exact ⟨e1 ++ e2, by rw [List.foldl_cons, he2, he1, List.append_assoc]⟩

/-- The `mask` closure only ever appends fresh cells to the heap: every
pre-existing address keeps its cell, whatever the fuel, key and value. -/
theorem maskValH_heap_ext (sens : List Str) (mt : Str → Str) :
    ∀ (fuel : Nat) (h : Heap) (key : Option Str) (v : JSVal),
      ∃ ext, (maskValH sens mt fuel h key v).1 = h ++ ext := by
  intro fuel
  induction fuel with
  | zero => intro h key v; exact ⟨[], (List.append_nil _).symm⟩
  | succ n ih =>
    intro h key v
    cases v with
    | vnull => exact ⟨[], (List.append_nil _).symm⟩
    | vundef => exact ⟨[], (List.append_nil _).symm⟩
    | vbool b =>
      refine ⟨[], ?_⟩
      rw [List.append_nil]
      simp only [maskValH]
      split <;> rfl
    | vnum q =>
      refine ⟨[], ?_⟩
      rw [List.append_nil]
      simp only [maskValH]
      split <;> rfl
    | vstr s =>
      refine ⟨[], ?_⟩
      rw [List.append_nil]
      simp only [maskValH]
      split <;> rfl
    | vref a =>
      by_cases hks : keyIsSensitive sens key = true
      · refine ⟨[], ?_⟩
        rw [List.append_nil]
        simp [maskValH, hks]
      · cases hcell : h[a]? with
        | none =>
          refine ⟨[], ?_⟩
          rw [List.append_nil]
          simp [maskValH, hks, hcell]
        | some cell =>
          cases cell with
          | harr es =>
            obtain ⟨ext, hext⟩ := foldl_alloc_ext
              (fun (acc : Heap × List JSVal) e =>
                ((maskValH sens mt n acc.1 none e).1,
                 acc.2 ++ [(maskValH sens mt n acc.1 none e).2]))
              (fun p e => ih p.1 none e) es (h, [])
            refine ⟨ext ++ [HCell.harr (es.foldl
              (fun (acc : Heap × List JSVal) e =>
                ((maskValH sens mt n acc.1 none e).1,
                 acc.2 ++ [(maskValH sens mt n acc.1 none e).2])) (h, [])).2], ?_⟩
            simp only [maskValH, hks, Bool.false_eq_true, if_false, hcell]
            rw [← List.append_assoc, ← hext]
          | hobj fs =>
            obtain ⟨ext, hext⟩ := foldl_alloc_ext
              (fun (acc : Heap × List (Str × JSVal)) kv =>
                ((maskValH sens mt n acc.1 (some kv.1) kv.2).1,
                 acc.2 ++ [(kv.1, (maskValH sens mt n acc.1 (some kv.1) kv.2).2)]))
              (fun p kv => ih p.1 (some kv.1) kv.2) fs (h, [])
            refine ⟨ext ++ [HCell.hobj (fs.foldl
              (fun (acc : Heap × List (Str × JSVal)) kv =>
                ((maskValH sens mt n acc.1 (some kv.1) kv.2).1,
                 acc.2 ++ [(kv.1, (maskValH sens mt n acc.1 (some kv.1) kv.2).2)])) (h, [])).2], ?_⟩
            simp only [maskValH, hks, Bool.false_eq_true, if_false, hcell]
            rw [← List.append_assoc, ← hext]

/-- C10: `maskObject` never mutates its argument. In the heap model the
masked result is built purely from freshly allocated cells appended at the
end of the heap, so every address of the input heap — every key, nested
object, array element and string leaf of the argument — holds exactly the
same cell after the call as before, for every configuration, fuel and
value. -/
theorem maskObjectH_no_mutation (enabled : Bool) (sensC add : List Str)
    (mt : Str → Str) (fuel : Nat) (h : Heap) (obj : JSVal) :
    (∃ ext, (maskObjectH enabled sensC mt add fuel h obj).1 = h ++ ext) ∧
    (∀ (key : Option Str) (v : JSVal),
      ∃ ext, (maskValH (sensC ++ add) mt fuel h key v).1 = h ++ ext) := by
  refine ⟨?_, fun key v => maskValH_heap_ext (sensC ++ add) mt fuel h key v⟩
  simp only [maskObjectH]
  split
  · exact ⟨[], (List.append_nil _).symm⟩
  · split
    · exact maskValH_heap_ext (sensC ++ add) mt fuel h none _
    · exact ⟨[], (List.append_nil _).symm⟩

end Nadi
